import Mathlib

/-!
Verification of the QueenSATSolver pipeline (QueenSolver.py).

The program encodes the "peaceable armies of queens" problem into DIMACS
CNF (`writeCNF`), invokes an external SAT solver and parses its standard
output (`solveCNF`), and decodes a satisfying assignment into a board
(`decodeSolution`).

Python strings are embedded as `List Char` (one entry per character of the
text), so that every operation is structurally recursive and computable.
Python `int` values are embedded as `Int`; board coordinates, variable IDs
and literals are `Int` as in the source.  Python exceptions (the
`ValueError` raised by `itertools.combinations` on a negative size, the
`ValueError` of `int(...)`, and the `FileNotFoundError` of
`subprocess.run`) are embedded as the `Except.error` branch of `Except`.
-/

/-! ### Python primitives used by the source -/

/-- The list of `Int` values produced by Python `range(n)` for a
nonnegative `n`. -/
def intRange (n : Nat) : List Int := (List.range n).map (fun t : Nat => (t : Int))

/-- The list of `Int` values produced by Python `range(a, b)`. -/
def rangeFromTo (a b : Int) : List Int :=
  (List.range (b - a).toNat).map (fun t : Nat => a + (t : Int))

/-- The value of Python `itertools.combinations(xs, r)` for nonnegative
`r`, as a list of `r`-element sublists in the order Python emits them. -/
def combinations {α : Type} : Nat → List α → List (List α)
  | 0, _ => [[]]
  | _ + 1, [] => []
  | r + 1, x :: xs =>
      (combinations r xs).map (fun c => x :: c) ++ combinations (r + 1) xs

/-- Message of the `ValueError` raised by `itertools.combinations` when
called with a negative `r`. -/
def combinationsError : List Char := "ValueError: r must be non-negative".data

/-! ### Encoder: `writeCNF` (QueenSolver.py lines 6-76) -/

/-- Variable ID of the white (army A) queen at cell `(i, j)`:
`wVar(i,j) = i*n + j + 1` (line 8-9). -/
def wVar (n : Nat) (i j : Int) : Int := i * (n : Int) + j + 1

/-- Variable ID of the black (army B) queen at cell `(i, j)`:
`bVar(i,j) = n*n + i*n + j + 1` (line 10-11). -/
def bVar (n : Nat) (i j : Int) : Int :=
  (n : Int) * (n : Int) + i * (n : Int) + j + 1

/-- `wCells = [(i,j) for i in range(n) for j in range(n)]` (line 16). -/
def wCells (n : Nat) : List (Int × Int) :=
  (intRange n).flatMap (fun i => (intRange n).map (fun j => (i, j)))

/-- `bCells = [(i,j) for i in range(n) for j in range(n)]` (line 17). -/
def bCells (n : Nat) : List (Int × Int) :=
  (intRange n).flatMap (fun i => (intRange n).map (fun j => (i, j)))

/-- At-most clauses for the white army (lines 23-25): one clause of
negated white literals per `r`-element combination of `wCells`. -/
def atMostW (n r : Nat) : List (List Int) :=
  (combinations r (wCells n)).map (fun combi =>
    combi.map (fun p => -(wVar n p.1 p.2)))

/-- At-most clauses for the black army (lines 26-28). -/
def atMostB (n r : Nat) : List (List Int) :=
  (combinations r (bCells n)).map (fun combi =>
    combi.map (fun p => -(bVar n p.1 p.2)))

/-- At-least clauses for the white army (lines 30-32): one clause of
positive white literals per `r`-element combination of `wCells`. -/
def atLeastW (n r : Nat) : List (List Int) :=
  (combinations r (wCells n)).map (fun combi =>
    combi.map (fun p => wVar n p.1 p.2))

/-- At-least clauses for the black army (lines 33-35). -/
def atLeastB (n r : Nat) : List (List Int) :=
  (combinations r (bCells n)).map (fun combi =>
    combi.map (fun p => bVar n p.1 p.2))

/-- Cross-army attack clauses (lines 38-62).  For every cell `(i, j)` the
source appends, in order: one clause per `jj != j` in the same row, one
per `ii != i` in the same column, and one per in-range nonzero offset `d`
on each of the two diagonals, each clause being
`[-wVar(i,j), -bVar(target)]`. -/
def attackClauses (n : Nat) : List (List Int) :=
  (intRange n).flatMap (fun i => (intRange n).flatMap (fun j =>
    ((intRange n).filterMap (fun jj =>
      if jj ≠ j then some [-(wVar n i j), -(bVar n i jj)] else none)) ++
    ((intRange n).filterMap (fun ii =>
      if ii ≠ i then some [-(wVar n i j), -(bVar n ii j)] else none)) ++
    ((rangeFromTo (-(n : Int) + 1) (n : Int)).filterMap (fun d =>
      if d ≠ 0 ∧ 0 ≤ i + d ∧ i + d < (n : Int) ∧ 0 ≤ j + d ∧ j + d < (n : Int)
      then some [-(wVar n i j), -(bVar n (i + d) (j + d))] else none)) ++
    ((rangeFromTo (-(n : Int) + 1) (n : Int)).filterMap (fun d =>
      if d ≠ 0 ∧ 0 ≤ i + d ∧ i + d < (n : Int) ∧ 0 ≤ j - d ∧ j - d < (n : Int)
      then some [-(wVar n i j), -(bVar n (i + d) (j - d))] else none))))

/-- Per-cell exclusivity clauses `[-wVar(i,j), -bVar(i,j)]`
(lines 65-69). -/
def exclClauses (n : Nat) : List (List Int) :=
  (intRange n).flatMap (fun i => (intRange n).map (fun j =>
    [-(wVar n i j), -(bVar n i j)]))

/-- The clause list accumulated by `writeCNF(n, k, ...)` (lines 14-69), in
source order.  `itertools.combinations` is called with Python sizes `k+1`
(at-most, lines 23 and 26) and `n*n - k + 1` (at-least, lines 30 and 33);
a negative size raises `ValueError`, embedded as the error branch, with
the first raising call (the white at-most loop) deciding the outcome. -/
def writeCNFclauses (n : Nat) (k : Int) : Except (List Char) (List (List Int)) :=
  if k + 1 < 0 then Except.error combinationsError
  else if (n : Int) * (n : Int) - k + 1 < 0 then Except.error combinationsError
  else Except.ok
    (atMostW n (k + 1).toNat ++ atMostB n (k + 1).toNat ++
     atLeastW n ((n : Int) * (n : Int) - k + 1).toNat ++
     atLeastB n ((n : Int) * (n : Int) - k + 1).toNat ++
     attackClauses n ++ exclClauses n)

/-! ### DIMACS serialization (lines 72-76) -/

/-- Decimal digits of a natural number, matching Python `str` on
nonnegative ints; the fuel argument always suffices. -/
def natDigitsAux : Nat → Nat → List Char
  | _, 0 => []
  | n, fuel + 1 =>
    if n < 10 then [Char.ofNat (48 + n)]
    else natDigitsAux (n / 10) fuel ++ [Char.ofNat (48 + n % 10)]

/-- Decimal representation of a natural number. -/
def natStr (n : Nat) : List Char := natDigitsAux n (n + 1)

/-- Decimal representation of an `Int`, matching Python `str(v)`. -/
def intStr (i : Int) : List Char :=
  if i < 0 then '-' :: natStr (-i).toNat else natStr i.toNat

/-- Python `sep.join(parts)`. -/
def joinSep (sep : List Char) : List (List Char) → List Char
  | [] => []
  | [x] => x
  | x :: xs => x ++ sep ++ joinSep sep xs

/-- The text written for one clause, without its trailing newline:
`" ".join(map(str, c)) + " 0"` (line 76). -/
def clauseLine (c : List Int) : List Char :=
  joinSep " ".data (c.map intStr) ++ " 0".data

/-- The header text `"p cnf {maxVar} {numClauses}"` with
`maxVar = 2*n*n` (lines 72-74), without its trailing newline. -/
def headerLine (n numClauses : Nat) : List Char :=
  "p cnf ".data ++ natStr (2 * n * n) ++ " ".data ++ natStr numClauses

/-- The lines written to the output file by `writeCNF(n, k, ...)`
(lines 73-76): the header followed by one line per clause.  Each list
entry corresponds to one `f.write(... + "\n")` call. -/
def dimacsLines (n : Nat) (k : Int) : Except (List Char) (List (List Char)) :=
  (writeCNFclauses n k).map (fun cl =>
    headerLine n cl.length :: cl.map clauseLine)

/-- The full call `writeCNF(n, k, outputFile)`: it returns the name of
the file written together with its byte content (lines joined with
newlines). -/
def writeCNF (n : Nat) (k : Int) (outputFile : List Char) :
    Except (List Char) (List Char × List Char) :=
  (dimacsLines n k).map (fun L =>
    (outputFile, (L.map (fun l => l ++ ['\n'])).flatten))

/-! ### CNF semantics -/

/-- A DIMACS literal holds under a valuation of the positive variable IDs:
a positive literal `l` asserts `v l = true`, a nonpositive literal asserts
`v (-l) = false`. -/
def litSat (v : Int → Bool) (l : Int) : Prop :=
  if 0 < l then v l = true else v (-l) = false

/-- A clause is satisfied when some literal of it holds. -/
def clauseSat (v : Int → Bool) (c : List Int) : Prop := ∃ l ∈ c, litSat v l

/-- A formula is satisfied when every clause is. -/
def formulaSat (v : Int → Bool) (F : List (List Int)) : Prop :=
  ∀ c ∈ F, clauseSat v c

/-! ### Solver adapter: `solveCNF` (lines 79-105)

`subprocess.run(["glucose", "-model", cnfFile], ...)` is embedded as an
argument: `Except.error` when the call raises (`FileNotFoundError` when
the binary is absent from the search path), `Except.ok output` with the
captured standard-output lines otherwise.  Only standard output is read
by the source, and only line-by-line, so the lines are the whole state. -/

/-- Python `s.startswith(pre)`. -/
def startsWithL (l pre : List Char) : Bool := pre.isPrefixOf l

/-- Python `pat in s` (substring containment). -/
def isInfixL (pat l : List Char) : Bool := decide (pat <:+: l)

/-- Python `s.split()`: split on runs of whitespace, dropping empty
pieces. -/
def splitAux (p : Char → Bool) : List Char → List Char → List (List Char)
  | [], acc => [acc.reverse]
  | c :: cs, acc =>
      if p c then acc.reverse :: splitAux p cs [] else splitAux p cs (c :: acc)

/-- Python `s.split()` with no argument. -/
def pySplit (l : List Char) : List (List Char) :=
  (splitAux (fun c => c.isWhitespace) l []).filter (fun t => t ≠ [])

/-- Decimal digit value of a character, when it is a digit. -/
def digitVal (c : Char) : Option Nat :=
  if c.isDigit then some (c.toNat - 48) else none

/-- Accumulating decimal parse of a digit string. -/
def parseNatAux : List Char → Nat → Option Nat
  | [], acc => some acc
  | c :: cs, acc => match digitVal c with
    | some d => parseNatAux cs (acc * 10 + d)
    | none => none

/-- Python `int(s)` on the strings the solver emits: an optional minus
sign followed by decimal digits; anything else raises `ValueError`,
embedded as `none`. -/
def parseIntL : List Char → Option Int
  | [] => none
  | '-' :: rest =>
      if rest = [] then none
      else (parseNatAux rest 0).map (fun m => -(m : Int))
  | cs => (parseNatAux cs 0).map (fun m => (m : Int))

/-- Python `int(p)` as an `Except`, the `ValueError` being the error
branch. -/
def parseIntPy (s : List Char) : Except (List Char) Int :=
  match parseIntL s with
  | some v => Except.ok v
  | none =>
      Except.error ("ValueError: invalid literal for int with base 10: ".data ++ s)

/-- One iteration of the line loop of `solveCNF` (lines 86-99) on the
state `(sat, model)`: a line starting with `"s "` sets the verdict
(`False` when it contains `"UNSATISFIABLE"`, `True` otherwise); a line
starting with `"v "` appends every nonzero `int(p)` of its
whitespace-separated parts after the first to the model. -/
def solveStep (st : Option Bool × List Int) (l : List Char) :
    Except (List Char) (Option Bool × List Int) :=
  let sat := if startsWithL l "s ".data then
      (if isInfixL "UNSATISFIABLE".data l then some false else some true)
    else st.1
  if startsWithL l "v ".data then
    match (pySplit l).tail.mapM parseIntPy with
    | Except.error e => Except.error e
    | Except.ok vals => Except.ok (sat, st.2 ++ vals.filter (fun v => v ≠ 0))
  else
    Except.ok (sat, st.2)

/-- The parsing loop of `solveCNF` over all captured standard-output
lines, starting from `sat = None` and `model = []` (lines 83-99). -/
def parseSolverOutput (output : List (List Char)) :
    Except (List Char) (Option Bool × List Int) :=
  output.foldlM solveStep (none, [])

/-- `solveCNF(cnfFile)` (lines 79-105) as a function of the outcome of
`subprocess.run`: an exception from the subprocess call (such as the
`FileNotFoundError` raised when the binary is absent) propagates; on a
captured output the parsed `(sat, model)` pair is returned. -/
def solveCNF (runResult : Except (List Char) (List (List Char))) :
    Except (List Char) (Option Bool × List Int) := do
  let output ← runResult
  parseSolverOutput output

/-! ### Decoder: `decodeSolution` (lines 108-133) -/

/-- The white variable ID recomputed by the decoder: `wv = i*n + j + 1`
(line 114). -/
def decodeWV (n : Nat) (i j : Int) : Int := i * (n : Int) + j + 1

/-- The black variable ID recomputed by the decoder:
`bv = n*n + i*n + j + 1` (line 115). -/
def decodeBV (n : Nat) (i j : Int) : Int :=
  (n : Int) * (n : Int) + i * (n : Int) + j + 1

/-- `trueVars = set([v for v in model if v > 0])` (line 111); a list with
membership used as the set. -/
def trueVars (model : List Int) : List Int := model.filter (fun v => 0 < v)

/-- `wPositions`: cells whose white variable ID is in `trueVars`
(lines 109-117). -/
def wPositions (n : Nat) (model : List Int) : List (Int × Int) :=
  (intRange n).flatMap (fun i => (intRange n).filterMap (fun j =>
    if decodeWV n i j ∈ trueVars model then some (i, j) else none))

/-- `bPositions`: cells whose black variable ID is in `trueVars`
(lines 109-119). -/
def bPositions (n : Nat) (model : List Int) : List (Int × Int) :=
  (intRange n).flatMap (fun i => (intRange n).filterMap (fun j =>
    if decodeBV n i j ∈ trueVars model then some (i, j) else none))

/-- The symbol rendered for one cell (lines 125-131): `"W"` when the cell
is in `wPositions`, else `"B"` when in `bPositions`, else `"."`. -/
def cellSym (n : Nat) (model : List Int) (i j : Int) : List Char :=
  if (i, j) ∈ wPositions n model then "W".data
  else if (i, j) ∈ bPositions n model then "B".data
  else ".".data

/-- `decodeSolution(n, model)` (lines 108-133): rows of cell symbols
joined with spaces, rows joined with newlines. -/
def decodeSolution (n : Nat) (model : List Int) : List Char :=
  joinSep "\n".data ((intRange n).map (fun i =>
    joinSep " ".data ((intRange n).map (fun j => cellSym n model i j))))

/-! ### Entry point guard: `main` (lines 136-166) -/

/-- Python truthiness of the parsed `n` or `k` value: `None` and `0` are
falsy, every other int is truthy. -/
def pyTruthy (x : Option Int) : Bool :=
  match x with
  | none => false
  | some v => v != 0

/-- The `(n, k)` pair `main` ends up with (lines 150-157): both values
from the instance file when `--instance` is given, the command-line
values otherwise. -/
def mainNK (instContents : Option (Int × Int)) (argN argK : Option Int) :
    Option Int × Option Int :=
  match instContents with
  | some p => (some p.1, some p.2)
  | none => (argN, argK)

/-- The guard `if not n or not k` (lines 159-161): on a falsy `n` or `k`
the program prints the message and exits with status 1, embedded as the
error branch; otherwise the values flow on. -/
def mainCheck (nk : Option Int × Option Int) : Except (List Char) (Int × Int) :=
  if !(pyTruthy nk.1) || !(pyTruthy nk.2) then
    Except.error "Please specify n and k.".data
  else Except.ok (nk.1.getD 0, nk.2.getD 0)

/-- `main` up to and including the encoding step (line 166): parameter
selection, the truthiness guard, then `writeCNF(n, k, ...)`.  A
nonpositive `n` makes every `range(n)` loop of the encoder empty, which
`Int.toNat` reproduces. -/
def mainEncode (instContents : Option (Int × Int)) (argN argK : Option Int) :
    Except (List Char) (List (List Int)) := do
  let nk ← mainCheck (mainNK instContents argN argK)
  writeCNFclauses nk.1.toNat nk.2

/-! ### Basic lemmas about the Python primitives -/

lemma mem_intRange {n : Nat} {x : Int} : x ∈ intRange n ↔ 0 ≤ x ∧ x < (n : Int) := by
  simp only [intRange, List.mem_map, List.mem_range]
  constructor
  · rintro ⟨t, ht, rfl⟩
    refine ⟨?_, ?_⟩
    · show (0 : Int) ≤ (t : Int)
      omega
    · show (t : Int) < (n : Int)
      omega
  · rintro ⟨h0, hn⟩
    refine ⟨x.toNat, by omega, ?_⟩
    show ((x.toNat : Nat) : Int) = x
    omega

lemma mem_rangeFromTo {a b x : Int} : x ∈ rangeFromTo a b ↔ a ≤ x ∧ x < b := by
  simp only [rangeFromTo, List.mem_map, List.mem_range]
  constructor
  · rintro ⟨t, ht, rfl⟩
    refine ⟨?_, ?_⟩
    · show a ≤ a + (t : Int)
      omega
    · show a + (t : Int) < b
      omega
  · rintro ⟨h0, hb⟩
    refine ⟨(x - a).toNat, by omega, ?_⟩
    show a + (((x - a).toNat : Nat) : Int) = x
    omega

lemma mem_wCells {n : Nat} {p : Int × Int} :
    p ∈ wCells n ↔ 0 ≤ p.1 ∧ p.1 < (n : Int) ∧ 0 ≤ p.2 ∧ p.2 < (n : Int) := by
  obtain ⟨x, y⟩ := p
  simp only [wCells, List.mem_flatMap, List.mem_map, Prod.mk.injEq]
  constructor
  · rintro ⟨i, hi, j, hj, rfl, rfl⟩
    exact ⟨(mem_intRange.1 hi).1, (mem_intRange.1 hi).2,
      (mem_intRange.1 hj).1, (mem_intRange.1 hj).2⟩
  · rintro ⟨hx0, hxn, hy0, hyn⟩
    exact ⟨x, mem_intRange.2 ⟨hx0, hxn⟩, y, mem_intRange.2 ⟨hy0, hyn⟩, rfl, rfl⟩

lemma mem_bCells {n : Nat} {p : Int × Int} :
    p ∈ bCells n ↔ 0 ≤ p.1 ∧ p.1 < (n : Int) ∧ 0 ≤ p.2 ∧ p.2 < (n : Int) :=
  mem_wCells

lemma length_intRange {n : Nat} : (intRange n).length = n := by
  simp [intRange]

lemma length_wCells {n : Nat} : (wCells n).length = n * n := by
  unfold wCells
  rw [List.length_flatMap]
  have h1 : List.map (List.length ∘ fun i => (intRange n).map (fun j => (i, j)))
      (intRange n) = List.map (fun _ => n) (intRange n) := by
    apply List.map_congr_left
    intro i _
    simp [length_intRange]
  rw [h1, List.map_const', length_intRange, List.sum_replicate, smul_eq_mul]

lemma length_bCells {n : Nat} : (bCells n).length = n * n :=
  length_wCells

/-- Every member of `combinations r xs` has length `r` and elements
from `xs`. -/
lemma combinations_spec {α : Type} :
    ∀ (xs : List α) (r : Nat) (c : List α), c ∈ combinations r xs →
      c.length = r ∧ ∀ x ∈ c, x ∈ xs := by
  intro xs
  induction xs with
  | nil =>
    intro r c hc
    cases r with
    | zero =>
      simp only [combinations, List.mem_singleton] at hc
      subst hc
      simp
    | succ r => simp [combinations] at hc
  | cons x t ih =>
    intro r c hc
    cases r with
    | zero =>
      simp only [combinations, List.mem_singleton] at hc
      subst hc
      simp
    | succ r =>
      simp only [combinations, List.mem_append, List.mem_map] at hc
      rcases hc with ⟨c2, hc2, rfl⟩ | hc
      · obtain ⟨hlen, hmem⟩ := ih r c2 hc2
        refine ⟨by simp [hlen], ?_⟩
        intro y hy
        rcases List.mem_cons.1 hy with rfl | hy
        · exact List.mem_cons_self _ _
        · exact List.mem_cons_of_mem _ (hmem y hy)
      · obtain ⟨hlen, hmem⟩ := ih (r + 1) c hc
        exact ⟨hlen, fun y hy => List.mem_cons_of_mem _ (hmem y hy)⟩

/-- `combinations r xs` is empty when `r` exceeds the length of `xs`. -/
lemma combinations_eq_nil {α : Type} :
    ∀ (xs : List α) (r : Nat), xs.length < r → combinations r xs = [] := by
  intro xs
  induction xs with
  | nil =>
    intro r hr
    cases r with
    | zero => simp at hr
    | succ r => simp [combinations]
  | cons x t ih =>
    intro r hr
    cases r with
    | zero => simp at hr
    | succ r =>
      simp only [List.length_cons] at hr
      simp only [combinations, ih r (by omega), ih (r + 1) (by omega),
        List.map_nil, List.nil_append]

/-- A singleton of every element of `xs` appears in `combinations 1 xs`. -/
lemma singleton_mem_combinations_one {α : Type} {x : α} :
    ∀ {xs : List α}, x ∈ xs → [x] ∈ combinations 1 xs := by
  intro xs
  induction xs with
  | nil => intro h; simp at h
  | cons y t ih =>
    intro h
    rcases List.mem_cons.1 h with rfl | h
    · simp [combinations]
    · simp only [combinations, List.mem_append]
      exact Or.inr (ih h)

/-! ### Variable ID bounds -/

lemma wVar_bounds {n : Nat} {i j : Int} (hi0 : 0 ≤ i) (hin : i < (n : Int))
    (hj0 : 0 ≤ j) (hjn : j < (n : Int)) :
    1 ≤ wVar n i j ∧ wVar n i j ≤ (n : Int) * (n : Int) := by
  unfold wVar
  constructor
  · nlinarith
  · nlinarith

lemma bVar_bounds {n : Nat} {i j : Int} (hi0 : 0 ≤ i) (hin : i < (n : Int))
    (hj0 : 0 ≤ j) (hjn : j < (n : Int)) :
    (n : Int) * (n : Int) + 1 ≤ bVar n i j ∧
      bVar n i j ≤ 2 * ((n : Int) * (n : Int)) := by
  unfold bVar
  constructor
  · nlinarith
  · nlinarith

/-- On in-range parameters `writeCNF` raises nothing: the clause list is
returned. -/
lemma writeCNFclauses_ok {n : Nat} {k : Int} (hk0 : 0 ≤ k)
    (hk1 : k ≤ (n : Int) * (n : Int)) :
    writeCNFclauses n k = Except.ok
      (atMostW n (k + 1).toNat ++ atMostB n (k + 1).toNat ++
       atLeastW n ((n : Int) * (n : Int) - k + 1).toNat ++
       atLeastB n ((n : Int) * (n : Int) - k + 1).toNat ++
       attackClauses n ++ exclClauses n) := by
  unfold writeCNFclauses
  rw [if_neg (by omega), if_neg (by omega)]

/-! ### Shape of the generated clauses -/

lemma atMostW_shape {n r : Nat} {c : List Int} (hc : c ∈ atMostW n r) :
    c.length = r ∧ ∀ l ∈ c, ∃ p, p ∈ wCells n ∧ l = -(wVar n p.1 p.2) := by
  obtain ⟨combi, hcombi, rfl⟩ := List.mem_map.1 hc
  obtain ⟨hlen, hsub⟩ := combinations_spec _ _ _ hcombi
  refine ⟨by simp [hlen], ?_⟩
  intro l hl
  obtain ⟨p, hp, rfl⟩ := List.mem_map.1 hl
  exact ⟨p, hsub p hp, rfl⟩

lemma atMostB_shape {n r : Nat} {c : List Int} (hc : c ∈ atMostB n r) :
    c.length = r ∧ ∀ l ∈ c, ∃ p, p ∈ bCells n ∧ l = -(bVar n p.1 p.2) := by
  obtain ⟨combi, hcombi, rfl⟩ := List.mem_map.1 hc
  obtain ⟨hlen, hsub⟩ := combinations_spec _ _ _ hcombi
  refine ⟨by simp [hlen], ?_⟩
  intro l hl
  obtain ⟨p, hp, rfl⟩ := List.mem_map.1 hl
  exact ⟨p, hsub p hp, rfl⟩

lemma atLeastW_shape {n r : Nat} {c : List Int} (hc : c ∈ atLeastW n r) :
    c.length = r ∧ ∀ l ∈ c, ∃ p, p ∈ wCells n ∧ l = wVar n p.1 p.2 := by
  obtain ⟨combi, hcombi, rfl⟩ := List.mem_map.1 hc
  obtain ⟨hlen, hsub⟩ := combinations_spec _ _ _ hcombi
  refine ⟨by simp [hlen], ?_⟩
  intro l hl
  obtain ⟨p, hp, rfl⟩ := List.mem_map.1 hl
  exact ⟨p, hsub p hp, rfl⟩

lemma atLeastB_shape {n r : Nat} {c : List Int} (hc : c ∈ atLeastB n r) :
    c.length = r ∧ ∀ l ∈ c, ∃ p, p ∈ bCells n ∧ l = bVar n p.1 p.2 := by
  obtain ⟨combi, hcombi, rfl⟩ := List.mem_map.1 hc
  obtain ⟨hlen, hsub⟩ := combinations_spec _ _ _ hcombi
  refine ⟨by simp [hlen], ?_⟩
  intro l hl
  obtain ⟨p, hp, rfl⟩ := List.mem_map.1 hl
  exact ⟨p, hsub p hp, rfl⟩

/-- Every attack clause is a binary clause of a negated white literal and
a negated black literal, both at in-range cells. -/
lemma attackClauses_shape {n : Nat} {c : List Int} (hc : c ∈ attackClauses n) :
    ∃ i j i2 j2 : Int,
      0 ≤ i ∧ i < (n : Int) ∧ 0 ≤ j ∧ j < (n : Int) ∧
      0 ≤ i2 ∧ i2 < (n : Int) ∧ 0 ≤ j2 ∧ j2 < (n : Int) ∧
      c = [-(wVar n i j), -(bVar n i2 j2)] := by
  unfold attackClauses at hc
  rw [List.mem_flatMap] at hc
  obtain ⟨i, hi, hc⟩ := hc
  rw [List.mem_flatMap] at hc
  obtain ⟨j, hj, hc⟩ := hc
  obtain ⟨hi0, hin⟩ := mem_intRange.1 hi
  obtain ⟨hj0, hjn⟩ := mem_intRange.1 hj
  rcases List.mem_append.1 hc with hc | hanti
  rcases List.mem_append.1 hc with hc | hdiag
  rcases List.mem_append.1 hc with hrow | hcol
  · rw [List.mem_filterMap] at hrow
    obtain ⟨jj, hjj, heq⟩ := hrow
    obtain ⟨h1, h2⟩ := mem_intRange.1 hjj
    by_cases hne : jj ≠ j
    · rw [if_pos hne] at heq
      exact ⟨i, j, i, jj, hi0, hin, hj0, hjn, hi0, hin, h1, h2,
        (Option.some.inj heq).symm⟩
    · rw [if_neg hne] at heq
      exact absurd heq (by simp)
  · rw [List.mem_filterMap] at hcol
    obtain ⟨ii, hii, heq⟩ := hcol
    obtain ⟨h1, h2⟩ := mem_intRange.1 hii
    by_cases hne : ii ≠ i
    · rw [if_pos hne] at heq
      exact ⟨i, j, ii, j, hi0, hin, hj0, hjn, h1, h2, hj0, hjn,
        (Option.some.inj heq).symm⟩
    · rw [if_neg hne] at heq
      exact absurd heq (by simp)
  · rw [List.mem_filterMap] at hdiag
    obtain ⟨d, _, heq⟩ := hdiag
    by_cases hcond : d ≠ 0 ∧ 0 ≤ i + d ∧ i + d < (n : Int) ∧
        0 ≤ j + d ∧ j + d < (n : Int)
    · rw [if_pos hcond] at heq
      exact ⟨i, j, i + d, j + d, hi0, hin, hj0, hjn, hcond.2.1, hcond.2.2.1,
        hcond.2.2.2.1, hcond.2.2.2.2, (Option.some.inj heq).symm⟩
    · rw [if_neg hcond] at heq
      exact absurd heq (by simp)
  · rw [List.mem_filterMap] at hanti
    obtain ⟨d, _, heq⟩ := hanti
    by_cases hcond : d ≠ 0 ∧ 0 ≤ i + d ∧ i + d < (n : Int) ∧
        0 ≤ j - d ∧ j - d < (n : Int)
    · rw [if_pos hcond] at heq
      exact ⟨i, j, i + d, j - d, hi0, hin, hj0, hjn, hcond.2.1, hcond.2.2.1,
        hcond.2.2.2.1, hcond.2.2.2.2, (Option.some.inj heq).symm⟩
    · rw [if_neg hcond] at heq
      exact absurd heq (by simp)

/-- Every exclusivity clause pairs the two negated literals of one
in-range cell. -/
lemma exclClauses_shape {n : Nat} {c : List Int} (hc : c ∈ exclClauses n) :
    ∃ i j : Int, 0 ≤ i ∧ i < (n : Int) ∧ 0 ≤ j ∧ j < (n : Int) ∧
      c = [-(wVar n i j), -(bVar n i j)] := by
  unfold exclClauses at hc
  rw [List.mem_flatMap] at hc
  obtain ⟨i, hi, hc⟩ := hc
  obtain ⟨j, hj, heq⟩ := List.mem_map.1 hc
  obtain ⟨hi0, hin⟩ := mem_intRange.1 hi
  obtain ⟨hj0, hjn⟩ := mem_intRange.1 hj
  exact ⟨i, j, hi0, hin, hj0, hjn, heq.symm⟩

/-- The attack constraint family contains the binary clause for every
ordered pair of distinct cells sharing a row, a column, or a diagonal. -/
lemma attack_clause_mem {n : Nat} {i j i2 j2 : Int}
    (hi0 : 0 ≤ i) (hin : i < (n : Int)) (hj0 : 0 ≤ j) (hjn : j < (n : Int))
    (hi20 : 0 ≤ i2) (hi2n : i2 < (n : Int)) (hj20 : 0 ≤ j2) (hj2n : j2 < (n : Int))
    (hne : (i, j) ≠ (i2, j2))
    (hrel : i = i2 ∨ j = j2 ∨ i - j = i2 - j2 ∨ i + j = i2 + j2) :
    [-(wVar n i j), -(bVar n i2 j2)] ∈ attackClauses n := by
  unfold attackClauses
  rw [List.mem_flatMap]
  refine ⟨i, mem_intRange.2 ⟨hi0, hin⟩, ?_⟩
  rw [List.mem_flatMap]
  refine ⟨j, mem_intRange.2 ⟨hj0, hjn⟩, ?_⟩
  by_cases hii : i = i2
  · -- same row
    have hjj : j2 ≠ j := by
      intro h
      exact hne (by rw [hii, h])
    apply List.mem_append_left
    apply List.mem_append_left
    apply List.mem_append_left
    rw [List.mem_filterMap]
    refine ⟨j2, mem_intRange.2 ⟨hj20, hj2n⟩, ?_⟩
    rw [if_pos hjj, hii]
  rcases hrel with hrel | hrel | hrel | hrel
  · exact absurd hrel hii
  · -- same column
    apply List.mem_append_left
    apply List.mem_append_left
    apply List.mem_append_right
    rw [List.mem_filterMap]
    refine ⟨i2, mem_intRange.2 ⟨hi20, hi2n⟩, ?_⟩
    have hii2 : i2 ≠ i := fun h => hii h.symm
    rw [if_pos hii2, hrel]
  · -- same diagonal
    apply List.mem_append_left
    apply List.mem_append_right
    rw [List.mem_filterMap]
    refine ⟨i2 - i, mem_rangeFromTo.2 ⟨by omega, by omega⟩, ?_⟩
    have e1 : i + (i2 - i) = i2 := by omega
    have e2 : j + (i2 - i) = j2 := by omega
    rw [if_pos ⟨by omega, by omega, by omega, by omega⟩, e1, e2]
  · -- same anti-diagonal
    apply List.mem_append_right
    rw [List.mem_filterMap]
    have hij2 : j - (i2 - i) = j2 := by omega
    refine ⟨i2 - i, mem_rangeFromTo.2 ⟨by omega, by omega⟩, ?_⟩
    have e1 : i + (i2 - i) = i2 := by omega
    rw [if_pos ⟨by omega, by omega, by omega, by omega⟩, e1, hij2]

/-! ### Semantic helper lemmas -/

lemma litSat_of_nonpos {v : Int → Bool} {l : Int} (h : l ≤ 0)
    (hv : v (-l) = false) : litSat v l := by
  unfold litSat
  rw [if_neg (by omega)]
  exact hv

lemma clauseSat_neg_pair {v : Int → Bool} {w b : Int} (hw : 1 ≤ w) (hb : 1 ≤ b)
    (h : clauseSat v [-w, -b]) : v w = false ∨ v b = false := by
  obtain ⟨l, hl, hsat⟩ := h
  unfold litSat at hsat
  rcases List.mem_cons.1 hl with rfl | hl
  · rw [if_neg (by omega), neg_neg] at hsat
    exact Or.inl hsat
  · rcases List.mem_cons.1 hl with rfl | hl
    · rw [if_neg (by omega), neg_neg] at hsat
      exact Or.inr hsat
    · exact absurd hl (List.not_mem_nil l)

lemma clauseSat_pos_unit {v : Int → Bool} {w : Int} (hw : 1 ≤ w)
    (h : clauseSat v [w]) : v w = true := by
  obtain ⟨l, hl, hsat⟩ := h
  unfold litSat at hsat
  rcases List.mem_cons.1 hl with rfl | hl
  · rwa [if_pos (by omega)] at hsat
  · exact absurd hl (List.not_mem_nil l)

/-! ### C1: attack pairs are excluded -/

/-- C1: for every in-range `(n, k)` and every pair of distinct cells
`(i, j)` and `(i2, j2)` sharing a row, a column, or a diagonal, the
formula written by `writeCNF(n, k)` contains the binary clause
`(-wVar(i,j) OR -bVar(i2,j2))`, so no satisfying assignment puts a white
queen on the first cell and a black queen on the second. -/
theorem c1_attacking_pair_clause (n : Nat) (k i j i2 j2 : Int)
    (hn : 1 ≤ n) (hk0 : 0 ≤ k) (hk1 : k ≤ (n : Int) * (n : Int))
    (hi0 : 0 ≤ i) (hin : i < (n : Int)) (hj0 : 0 ≤ j) (hjn : j < (n : Int))
    (hi20 : 0 ≤ i2) (hi2n : i2 < (n : Int)) (hj20 : 0 ≤ j2) (hj2n : j2 < (n : Int))
    (hne : (i, j) ≠ (i2, j2))
    (hrel : i = i2 ∨ j = j2 ∨ i - j = i2 - j2 ∨ i + j = i2 + j2) :
    ∃ F, writeCNFclauses n k = Except.ok F ∧
      [-(wVar n i j), -(bVar n i2 j2)] ∈ F ∧
      ∀ v : Int → Bool, formulaSat v F →
        ¬(v (wVar n i j) = true ∧ v (bVar n i2 j2) = true) := by
  have hmem : [-(wVar n i j), -(bVar n i2 j2)] ∈ attackClauses n :=
    attack_clause_mem hi0 hin hj0 hjn hi20 hi2n hj20 hj2n hne hrel
  refine ⟨_, writeCNFclauses_ok hk0 hk1,
    List.mem_append_left _ (List.mem_append_right _ hmem), ?_⟩
  intro v hv hcontra
  have hcl := hv _ (List.mem_append_left _ (List.mem_append_right _ hmem))
  have hw : 1 ≤ wVar n i j := (wVar_bounds hi0 hin hj0 hjn).1
  have hb : 1 ≤ bVar n i2 j2 := by
    have h1 := (bVar_bounds hi20 hi2n hj20 hj2n).1
    have h2 : (0 : Int) ≤ (n : Int) * (n : Int) := by positivity
    omega
  rcases clauseSat_neg_pair hw hb hcl with h | h
  · rw [hcontra.1] at h
    exact Bool.noConfusion h
  · rw [hcontra.2] at h
    exact Bool.noConfusion h

/-- Witness for C1 at `n = 2`, `k = 1`, cells `(0,0)` and `(1,1)` on the
shared main diagonal. -/
theorem c1_witness :
    ∃ F, writeCNFclauses 2 1 = Except.ok F ∧
      [-(wVar 2 0 0), -(bVar 2 1 1)] ∈ F ∧
      ∀ v : Int → Bool, formulaSat v F →
        ¬(v (wVar 2 0 0) = true ∧ v (bVar 2 1 1) = true) :=
  c1_attacking_pair_clause 2 1 0 0 1 1 (by decide) (by decide) (by decide)
    (by decide) (by decide) (by decide) (by decide) (by decide) (by decide)
    (by decide) (by decide) (by decide) (by decide)

/-! ### C5: out-of-range k -/

/-- C5 counterexample: the claim says `writeCNF` terminates without an
exception for every `k` outside `[0, n^2]`, but at `n = 1`, `k = 3` the
at-least loop calls `itertools.combinations` with size `1 - 3 + 1 = -1`,
which raises `ValueError`. -/
theorem c5_counterexample :
    writeCNFclauses 1 3 = Except.error combinationsError := rfl

/-- C5 amended: for out-of-range `k` the encoder terminates without an
exception exactly when `k = -1` or `k = n^2 + 1`, in which case the
formula contains an empty clause and is trivially unsatisfiable; for
`k < -1` or `k > n^2 + 1` the `itertools.combinations` call raises
`ValueError` (a negative combination size). -/
theorem c5_out_of_range_amended (n : Nat) (k : Int) (hn : 1 ≤ n)
    (hout : k < 0 ∨ (n : Int) * (n : Int) < k) :
    ((k = -1 ∨ k = (n : Int) * (n : Int) + 1) →
      ∃ F, writeCNFclauses n k = Except.ok F ∧ [] ∈ F ∧ ¬ ∃ v, formulaSat v F) ∧
    ((k < -1 ∨ (n : Int) * (n : Int) + 1 < k) →
      writeCNFclauses n k = Except.error combinationsError) := by
  have hnn : (0 : Int) ≤ (n : Int) * (n : Int) := by positivity
  constructor
  · rintro (rfl | rfl)
    · -- k = -1: the at-most combination size is 0, giving the empty clause
      have hok : writeCNFclauses n (-1) = Except.ok
          (atMostW n ((-1 : Int) + 1).toNat ++ atMostB n ((-1 : Int) + 1).toNat ++
           atLeastW n ((n : Int) * (n : Int) - (-1) + 1).toNat ++
           atLeastB n ((n : Int) * (n : Int) - (-1) + 1).toNat ++
           attackClauses n ++ exclClauses n) := by
        unfold writeCNFclauses
        rw [if_neg (by omega), if_neg (by omega)]
      have h0 : ((-1 : Int) + 1).toNat = 0 := by decide
      have hmem : ([] : List Int) ∈ atMostW n 0 := by
        simp [atMostW, combinations]
      refine ⟨_, hok, ?_, ?_⟩
      · rw [h0]
        exact List.mem_append_left _ (List.mem_append_left _
          (List.mem_append_left _ (List.mem_append_left _
            (List.mem_append_left _ hmem))))
      · rintro ⟨v, hv⟩
        have hcl := hv [] (by
          rw [h0]
          exact List.mem_append_left _ (List.mem_append_left _
            (List.mem_append_left _ (List.mem_append_left _
              (List.mem_append_left _ hmem)))))
        obtain ⟨l, hl, _⟩ := hcl
        exact absurd hl (List.not_mem_nil l)
    · -- k = n^2 + 1: the at-least combination size is 0
      have hok : writeCNFclauses n ((n : Int) * (n : Int) + 1) = Except.ok
          (atMostW n ((n : Int) * (n : Int) + 1 + 1).toNat ++
           atMostB n ((n : Int) * (n : Int) + 1 + 1).toNat ++
           atLeastW n ((n : Int) * (n : Int) - ((n : Int) * (n : Int) + 1) + 1).toNat ++
           atLeastB n ((n : Int) * (n : Int) - ((n : Int) * (n : Int) + 1) + 1).toNat ++
           attackClauses n ++ exclClauses n) := by
        unfold writeCNFclauses
        rw [if_neg (by omega), if_neg (by omega)]
      have h0 : ((n : Int) * (n : Int) - ((n : Int) * (n : Int) + 1) + 1).toNat = 0 := by
        omega
      have hmem : ([] : List Int) ∈ atLeastW n 0 := by
        simp [atLeastW, combinations]
      refine ⟨_, hok, ?_, ?_⟩
      · rw [h0]
        exact List.mem_append_left _ (List.mem_append_left _
          (List.mem_append_left _ (List.mem_append_right _ hmem)))
      · rintro ⟨v, hv⟩
        have hcl := hv [] (by
          rw [h0]
          exact List.mem_append_left _ (List.mem_append_left _
            (List.mem_append_left _ (List.mem_append_right _ hmem))))
        obtain ⟨l, hl, _⟩ := hcl
        exact absurd hl (List.not_mem_nil l)
  · rintro (h | h)
    · unfold writeCNFclauses
      rw [if_pos (by omega)]
    · unfold writeCNFclauses
      rw [if_neg (by omega), if_pos (by omega)]

/-- Witness for the amended C5 at `n = 1`, `k = -1`. -/
theorem c5_witness :
    ((-1 : Int) < 0 ∨ ((1 : Nat) : Int) * ((1 : Nat) : Int) < -1) ∧
    ((((-1 : Int) = -1 ∨ (-1 : Int) = ((1 : Nat) : Int) * ((1 : Nat) : Int) + 1) →
      ∃ F, writeCNFclauses 1 (-1) = Except.ok F ∧ [] ∈ F ∧ ¬ ∃ v, formulaSat v F) ∧
     (((-1 : Int) < -1 ∨ ((1 : Nat) : Int) * ((1 : Nat) : Int) + 1 < -1) →
      writeCNFclauses 1 (-1) = Except.error combinationsError)) :=
  ⟨by decide, c5_out_of_range_amended 1 (-1) (by decide) (by decide)⟩

/-! ### C6: deterministic output -/

/-- C6: the bytes written by `writeCNF(n, k, outputFile)` are a pure
function of `(n, k)` alone: two invocations, with any output paths,
produce identical content, so re-encoding the same `(n, k)` is
byte-identical. -/
theorem c6_encode_deterministic (n : Nat) (k : Int) (f1 f2 : List Char) :
    (writeCNF n k f1).map Prod.snd = (writeCNF n k f2).map Prod.snd := by
  unfold writeCNF
  cases dimacsLines n k <;> rfl

/-! ### C9: the truthiness guard of main -/

/-- C9: when the `n` or `k` that `main` obtained (from the command line
or the instance file) is `0`, the Python truthiness test `not n or not k`
treats it as missing: `main` reports "Please specify n and k." and stops
before any encoding happens. -/
theorem c9_zero_rejected_by_guard (instContents : Option (Int × Int))
    (argN argK : Option Int)
    (h : (mainNK instContents argN argK).1 = some 0 ∨
         (mainNK instContents argN argK).2 = some 0) :
    mainEncode instContents argN argK =
      Except.error "Please specify n and k.".data := by
  unfold mainEncode
  have hcheck : mainCheck (mainNK instContents argN argK) =
      Except.error "Please specify n and k.".data := by
    unfold mainCheck
    rcases h with h | h <;> rw [h] <;> simp [pyTruthy]
  rw [hcheck]
  rfl

/-- Witness for C9: `k = 0` supplied through the instance file. -/
theorem c9_witness :
    mainEncode (some (5, 0)) none none =
      Except.error "Please specify n and k.".data :=
  c9_zero_rejected_by_guard (some (5, 0)) none none (Or.inr (by decide))

/-! ### C10: literals are in the declared variable range -/

/-- C10: for in-range `(n, k)`, every clause accumulated by `writeCNF` is
nonempty and every literal is a nonzero signed integer whose absolute
value lies within the `[1, 2n^2]` range declared in the DIMACS header. -/
theorem c10_literal_bounds (n : Nat) (k : Int) (hn : 1 ≤ n) (hk0 : 0 ≤ k)
    (hk1 : k ≤ (n : Int) * (n : Int)) :
    ∃ F, writeCNFclauses n k = Except.ok F ∧
      ∀ c ∈ F, c ≠ [] ∧ ∀ l ∈ c,
        l ≠ 0 ∧ 1 ≤ |l| ∧ |l| ≤ 2 * ((n : Int) * (n : Int)) := by
  have hnn : (0 : Int) ≤ (n : Int) * (n : Int) := by positivity
  refine ⟨_, writeCNFclauses_ok hk0 hk1, ?_⟩
  intro c hc
  rcases List.mem_append.1 hc with hc | hEX
  rcases List.mem_append.1 hc with hc | hAT
  rcases List.mem_append.1 hc with hc | hALB
  rcases List.mem_append.1 hc with hc | hALW
  rcases List.mem_append.1 hc with hAMW | hAMB
  · obtain ⟨hlen, hlit⟩ := atMostW_shape hAMW
    refine ⟨by intro h; rw [h] at hlen; simp at hlen; omega, ?_⟩
    intro l hl
    obtain ⟨p, hp, rfl⟩ := hlit l hl
    obtain ⟨h1, h2, h3, h4⟩ := mem_wCells.1 hp
    have hb := wVar_bounds h1 h2 h3 h4
    rw [abs_neg, abs_of_pos (by omega)]
    omega
  · obtain ⟨hlen, hlit⟩ := atMostB_shape hAMB
    refine ⟨by intro h; rw [h] at hlen; simp at hlen; omega, ?_⟩
    intro l hl
    obtain ⟨p, hp, rfl⟩ := hlit l hl
    obtain ⟨h1, h2, h3, h4⟩ := mem_bCells.1 hp
    have hb := bVar_bounds h1 h2 h3 h4
    rw [abs_neg, abs_of_pos (by omega)]
    omega
  · obtain ⟨hlen, hlit⟩ := atLeastW_shape hALW
    refine ⟨by intro h; rw [h] at hlen; simp at hlen; omega, ?_⟩
    intro l hl
    obtain ⟨p, hp, rfl⟩ := hlit l hl
    obtain ⟨h1, h2, h3, h4⟩ := mem_wCells.1 hp
    have hb := wVar_bounds h1 h2 h3 h4
    rw [abs_of_pos (by omega)]
    omega
  · obtain ⟨hlen, hlit⟩ := atLeastB_shape hALB
    refine ⟨by intro h; rw [h] at hlen; simp at hlen; omega, ?_⟩
    intro l hl
    obtain ⟨p, hp, rfl⟩ := hlit l hl
    obtain ⟨h1, h2, h3, h4⟩ := mem_bCells.1 hp
    have hb := bVar_bounds h1 h2 h3 h4
    rw [abs_of_pos (by omega)]
    omega
  · obtain ⟨i, j, i2, j2, h1, h2, h3, h4, h5, h6, h7, h8, rfl⟩ :=
      attackClauses_shape hAT
    have hbw := wVar_bounds h1 h2 h3 h4
    have hbb := bVar_bounds h5 h6 h7 h8
    refine ⟨by simp, ?_⟩
    intro l hl
    rcases List.mem_cons.1 hl with rfl | hl
    · rw [abs_neg, abs_of_pos (by omega)]
      omega
    rcases List.mem_cons.1 hl with rfl | hl
    · rw [abs_neg, abs_of_pos (by omega)]
      omega
    · exact absurd hl (List.not_mem_nil l)
  · obtain ⟨i, j, h1, h2, h3, h4, rfl⟩ := exclClauses_shape hEX
    have hbw := wVar_bounds h1 h2 h3 h4
    have hbb := bVar_bounds h1 h2 h3 h4
    refine ⟨by simp, ?_⟩
    intro l hl
    rcases List.mem_cons.1 hl with rfl | hl
    · rw [abs_neg, abs_of_pos (by omega)]
      omega
    rcases List.mem_cons.1 hl with rfl | hl
    · rw [abs_neg, abs_of_pos (by omega)]
      omega
    · exact absurd hl (List.not_mem_nil l)

/-- Witness for C10 at `n = 2`, `k = 2`. -/
theorem c10_witness :
    ∃ F, writeCNFclauses 2 2 = Except.ok F ∧
      ∀ c ∈ F, c ≠ [] ∧ ∀ l ∈ c,
        l ≠ 0 ∧ 1 ≤ |l| ∧ |l| ≤ 2 * (((2 : Nat) : Int) * ((2 : Nat) : Int)) :=
  c10_literal_bounds 2 2 (by decide) (by decide) (by decide)

/-! ### C2: boundary values of k -/

/-- C2: for every `n >= 1` the formula of `writeCNF(n, 0)` is satisfied
by the all-false assignment, and the formula of `writeCNF(n, n^2)` is
unsatisfiable (its at-least unit clauses contradict cell exclusivity). -/
theorem c2_boundary (n : Nat) (hn : 1 ≤ n) :
    (∃ F, writeCNFclauses n 0 = Except.ok F ∧
      formulaSat (fun _ => false) F) ∧
    (∃ F, writeCNFclauses n ((n : Int) * (n : Int)) = Except.ok F ∧
      ¬ ∃ v, formulaSat v F) := by
  have hnn : (0 : Int) ≤ (n : Int) * (n : Int) := by positivity
  have hn0 : (0 : Int) < (n : Int) := by omega
  constructor
  · -- k = 0: every clause of the formula contains a nonpositive literal
    have hALWnil : atLeastW n ((n : Int) * (n : Int) - 0 + 1).toNat = [] := by
      have hcast : ((n : Int) * (n : Int) - 0 + 1) = ((n * n + 1 : Nat) : Int) := by
        push_cast
        ring
      have htn : (((n * n + 1 : Nat) : Int)).toNat = n * n + 1 := by omega
      rw [hcast, htn]
      unfold atLeastW
      rw [combinations_eq_nil _ _ (by rw [length_wCells]; omega)]
      rfl
    have hALBnil : atLeastB n ((n : Int) * (n : Int) - 0 + 1).toNat = [] := by
      have hcast : ((n : Int) * (n : Int) - 0 + 1) = ((n * n + 1 : Nat) : Int) := by
        push_cast
        ring
      have htn : (((n * n + 1 : Nat) : Int)).toNat = n * n + 1 := by omega
      rw [hcast, htn]
      unfold atLeastB
      rw [combinations_eq_nil _ _ (by rw [length_bCells]; omega)]
      rfl
    refine ⟨_, writeCNFclauses_ok le_rfl hnn, ?_⟩
    intro c hc
    rcases List.mem_append.1 hc with hc | hEX
    rcases List.mem_append.1 hc with hc | hAT
    rcases List.mem_append.1 hc with hc | hALB
    rcases List.mem_append.1 hc with hc | hALW
    rcases List.mem_append.1 hc with hAMW | hAMB
    · obtain ⟨hlen, hlit⟩ := atMostW_shape hAMW
      have hne : c ≠ [] := by
        intro h
        rw [h] at hlen
        simp at hlen
      obtain ⟨l, hl⟩ := List.exists_mem_of_ne_nil c hne
      obtain ⟨p, hp, rfl⟩ := hlit l hl
      obtain ⟨h1, h2, h3, h4⟩ := mem_wCells.1 hp
      have hb := wVar_bounds h1 h2 h3 h4
      exact ⟨_, hl, litSat_of_nonpos (by omega) rfl⟩
    · obtain ⟨hlen, hlit⟩ := atMostB_shape hAMB
      have hne : c ≠ [] := by
        intro h
        rw [h] at hlen
        simp at hlen
      obtain ⟨l, hl⟩ := List.exists_mem_of_ne_nil c hne
      obtain ⟨p, hp, rfl⟩ := hlit l hl
      obtain ⟨h1, h2, h3, h4⟩ := mem_bCells.1 hp
      have hb := bVar_bounds h1 h2 h3 h4
      exact ⟨_, hl, litSat_of_nonpos (by omega) rfl⟩
    · rw [hALWnil] at hALW
      exact absurd hALW (List.not_mem_nil c)
    · rw [hALBnil] at hALB
      exact absurd hALB (List.not_mem_nil c)
    · obtain ⟨i, j, i2, j2, h1, h2, h3, h4, h5, h6, h7, h8, rfl⟩ :=
        attackClauses_shape hAT
      have hb := wVar_bounds h1 h2 h3 h4
      exact ⟨_, List.mem_cons_self _ _, litSat_of_nonpos (by omega) rfl⟩
    · obtain ⟨i, j, h1, h2, h3, h4, rfl⟩ := exclClauses_shape hEX
      have hb := wVar_bounds h1 h2 h3 h4
      exact ⟨_, List.mem_cons_self _ _, litSat_of_nonpos (by omega) rfl⟩
  · -- k = n^2: the at-least unit clauses at (0,0) contradict exclusivity
    have hr : ((n : Int) * (n : Int) - (n : Int) * (n : Int) + 1).toNat = 1 := by
      omega
    have hcell : ((0 : Int), (0 : Int)) ∈ wCells n :=
      mem_wCells.2 ⟨le_rfl, hn0, le_rfl, hn0⟩
    have hw00 : [wVar n 0 0] ∈ atLeastW n 1 :=
      List.mem_map.2 ⟨[(0, 0)], singleton_mem_combinations_one hcell, rfl⟩
    have hb00 : [bVar n 0 0] ∈ atLeastB n 1 :=
      List.mem_map.2 ⟨[(0, 0)], singleton_mem_combinations_one hcell, rfl⟩
    have hex : [-(wVar n 0 0), -(bVar n 0 0)] ∈ exclClauses n := by
      unfold exclClauses
      rw [List.mem_flatMap]
      exact ⟨0, mem_intRange.2 ⟨le_rfl, hn0⟩,
        List.mem_map.2 ⟨0, mem_intRange.2 ⟨le_rfl, hn0⟩, rfl⟩⟩
    have hwb := wVar_bounds (le_refl (0 : Int)) hn0 (le_refl (0 : Int)) hn0
    have hbb := bVar_bounds (le_refl (0 : Int)) hn0 (le_refl (0 : Int)) hn0
    refine ⟨_, writeCNFclauses_ok hnn le_rfl, ?_⟩
    rintro ⟨v, hv⟩
    have h1 : v (wVar n 0 0) = true := by
      refine clauseSat_pos_unit (by omega) (hv _ ?_)
      exact List.mem_append_left _ (List.mem_append_left _
        (List.mem_append_left _ (List.mem_append_right _ (by rw [hr]; exact hw00))))
    have h2 : v (bVar n 0 0) = true := by
      refine clauseSat_pos_unit (by omega) (hv _ ?_)
      exact List.mem_append_left _ (List.mem_append_left _
        (List.mem_append_right _ (by rw [hr]; exact hb00)))
    have h3 := clauseSat_neg_pair (by omega) (by omega)
      (hv _ (List.mem_append_right _ hex))
    rcases h3 with h | h
    · rw [h1] at h
      exact Bool.noConfusion h
    · rw [h2] at h
      exact Bool.noConfusion h

/-- Witness for C2 at `n = 2`. -/
theorem c2_witness :
    (∃ F, writeCNFclauses 2 0 = Except.ok F ∧
      formulaSat (fun _ => false) F) ∧
    (∃ F, writeCNFclauses 2 (((2 : Nat) : Int) * ((2 : Nat) : Int)) = Except.ok F ∧
      ¬ ∃ v, formulaSat v F) :=
  c2_boundary 2 (by decide)

/-! ### C3: DIMACS header and line structure -/

/-- C3: for in-range `(n, k)` the written file starts with the header
`p cnf <2*n*n> <numClauses>` where the declared clause count equals the
number of clause lines that follow it, and every clause line is the
space-separated rendering of a clause terminated by the `0` sentinel. -/
theorem c3_dimacs_header (n : Nat) (k : Int) (hn : 1 ≤ n) (hk0 : 0 ≤ k)
    (hk1 : k ≤ (n : Int) * (n : Int)) :
    ∃ F L, writeCNFclauses n k = Except.ok F ∧ dimacsLines n k = Except.ok L ∧
      L.head? = some (headerLine n L.tail.length) ∧
      headerLine n L.tail.length =
        "p cnf ".data ++ natStr (2 * n * n) ++ " ".data ++ natStr L.tail.length ∧
      L.tail.length = F.length ∧
      ∀ line ∈ L.tail, ∃ c, c ∈ F ∧
        line = joinSep " ".data (c.map intStr) ++ " 0".data := by
  obtain ⟨F, hF⟩ : ∃ F, writeCNFclauses n k = Except.ok F :=
    ⟨_, writeCNFclauses_ok hk0 hk1⟩
  refine ⟨F, headerLine n F.length :: F.map clauseLine, hF, ?_, ?_, ?_, ?_, ?_⟩
  · unfold dimacsLines
    rw [hF]
    rfl
  · simp
  · simp [headerLine]
  · simp
  · intro line hline
    simp only [List.tail_cons] at hline
    obtain ⟨c, hc, rfl⟩ := List.mem_map.1 hline
    exact ⟨c, hc, rfl⟩

/-- Witness for C3 at `n = 1`, `k = 0`. -/
theorem c3_witness :
    ∃ F L, writeCNFclauses 1 0 = Except.ok F ∧ dimacsLines 1 0 = Except.ok L ∧
      L.head? = some (headerLine 1 L.tail.length) ∧
      headerLine 1 L.tail.length =
        "p cnf ".data ++ natStr (2 * 1 * 1) ++ " ".data ++ natStr L.tail.length ∧
      L.tail.length = F.length ∧
      ∀ line ∈ L.tail, ∃ c, c ∈ F ∧
        line = joinSep " ".data (c.map intStr) ++ " 0".data :=
  c3_dimacs_header 1 0 (by decide) (by decide) (by decide)

/-! ### C7: the variable ID mapping is a bijection -/

/-- The `(army, row, col) -> ID` mapping of the encoder, `true` being the
white army (A) and `false` the black army (B). -/
def varId (n : Nat) (t : Bool × Int × Int) : Int :=
  if t.1 then wVar n t.2.1 t.2.2 else bVar n t.2.1 t.2.2

lemma varId_true {n : Nat} {i j : Int} : varId n (true, i, j) = wVar n i j := rfl

lemma varId_false {n : Nat} {i j : Int} : varId n (false, i, j) = bVar n i j := rfl

/-- Decomposing `i*n + j` with `0 <= j < n` is unique. -/
lemma cell_linear_inj {n : Nat} {i j i2 j2 : Int}
    (hj0 : 0 ≤ j) (hjn : j < (n : Int)) (hj20 : 0 ≤ j2) (hj2n : j2 < (n : Int))
    (h : i * (n : Int) + j = i2 * (n : Int) + j2) : i = i2 ∧ j = j2 := by
  rcases lt_trichotomy i i2 with hlt | heq | hgt
  · exfalso
    have h2 : (i + 1) * (n : Int) ≤ i2 * (n : Int) := by
      apply mul_le_mul_of_nonneg_right _ (by positivity)
      omega
    nlinarith
  · subst heq
    exact ⟨rfl, by omega⟩
  · exfalso
    have h2 : (i2 + 1) * (n : Int) ≤ i * (n : Int) := by
      apply mul_le_mul_of_nonneg_right _ (by positivity)
      omega
    nlinarith

/-- C7: for every `n >= 1` the mapping `(army, row, col) -> ID` is a
bijection from the in-range triples onto `[1, 2n^2]`, the white IDs
filling `[1, n^2]` and the black IDs filling `[n^2+1, 2n^2]`, and the
decoder recomputes exactly the encoder's mapping. -/
theorem c7_varid_bijection (n : Nat) (hn : 1 ≤ n) :
    Set.BijOn (varId n)
      {t : Bool × Int × Int |
        0 ≤ t.2.1 ∧ t.2.1 < (n : Int) ∧ 0 ≤ t.2.2 ∧ t.2.2 < (n : Int)}
      (Set.Icc 1 (2 * ((n : Int) * (n : Int)))) ∧
    (∀ i j : Int, 0 ≤ i → i < (n : Int) → 0 ≤ j → j < (n : Int) →
      (1 ≤ wVar n i j ∧ wVar n i j ≤ (n : Int) * (n : Int)) ∧
      ((n : Int) * (n : Int) + 1 ≤ bVar n i j ∧
        bVar n i j ≤ 2 * ((n : Int) * (n : Int)))) ∧
    (∀ i j : Int, decodeWV n i j = wVar n i j ∧ decodeBV n i j = bVar n i j) := by
  have hn0 : (0 : Int) < (n : Int) := by omega
  refine ⟨⟨?_, ?_, ?_⟩, ?_, fun i j => ⟨rfl, rfl⟩⟩
  · -- maps to
    rintro ⟨a, i, j⟩ ⟨h1, h2, h3, h4⟩
    dsimp only at h1 h2 h3 h4
    rw [Set.mem_Icc]
    cases a
    · have hb := bVar_bounds h1 h2 h3 h4
      rw [varId_false]
      omega
    · have hb := wVar_bounds h1 h2 h3 h4
      have hnn : (0 : Int) ≤ (n : Int) * (n : Int) := by positivity
      rw [varId_true]
      omega
  · -- injective on the in-range triples
    rintro ⟨a, i, j⟩ ⟨h1, h2, h3, h4⟩ ⟨a2, i2, j2⟩ ⟨h5, h6, h7, h8⟩ heq
    dsimp only at h1 h2 h3 h4 h5 h6 h7 h8
    cases a <;> cases a2
    · -- both black
      rw [varId_false, varId_false] at heq
      unfold bVar at heq
      have hlin : i * (n : Int) + j = i2 * (n : Int) + j2 := by omega
      obtain ⟨hi, hj⟩ := cell_linear_inj h3 h4 h7 h8 hlin
      rw [hi, hj]
    · -- black versus white
      exfalso
      rw [varId_false, varId_true] at heq
      have hb := bVar_bounds h1 h2 h3 h4
      have hw := wVar_bounds h5 h6 h7 h8
      omega
    · -- white versus black
      exfalso
      rw [varId_true, varId_false] at heq
      have hw := wVar_bounds h1 h2 h3 h4
      have hb := bVar_bounds h5 h6 h7 h8
      omega
    · -- both white
      rw [varId_true, varId_true] at heq
      unfold wVar at heq
      have hlin : i * (n : Int) + j = i2 * (n : Int) + j2 := by omega
      obtain ⟨hi, hj⟩ := cell_linear_inj h3 h4 h7 h8 hlin
      rw [hi, hj]
  · -- surjective onto [1, 2n^2]
    intro v hv
    rw [Set.mem_Icc] at hv
    by_cases hsmall : v ≤ (n : Int) * (n : Int)
    · refine ⟨(true, (v - 1) / (n : Int), (v - 1) % (n : Int)),
        ⟨Int.ediv_nonneg (by omega) (by omega), ?_,
         Int.emod_nonneg _ (by omega), Int.emod_lt_of_pos _ hn0⟩, ?_⟩
      · rw [Int.ediv_lt_iff_lt_mul hn0]
        omega
      · have hde := Int.ediv_add_emod (v - 1) (n : Int)
        rw [varId_true]
        unfold wVar
        linarith
    · refine ⟨(false, (v - (n : Int) * (n : Int) - 1) / (n : Int),
        (v - (n : Int) * (n : Int) - 1) % (n : Int)),
        ⟨Int.ediv_nonneg (by omega) (by omega), ?_,
         Int.emod_nonneg _ (by omega), Int.emod_lt_of_pos _ hn0⟩, ?_⟩
      · rw [Int.ediv_lt_iff_lt_mul hn0]
        omega
      · have hde := Int.ediv_add_emod (v - (n : Int) * (n : Int) - 1) (n : Int)
        rw [varId_false]
        unfold bVar
        linarith
  · -- range bounds per army
    intro i j h1 h2 h3 h4
    exact ⟨wVar_bounds h1 h2 h3 h4, bVar_bounds h1 h2 h3 h4⟩

/-- Witness for C7 at `n = 2`. -/
theorem c7_witness :
    Set.BijOn (varId 2)
      {t : Bool × Int × Int |
        0 ≤ t.2.1 ∧ t.2.1 < ((2 : Nat) : Int) ∧ 0 ≤ t.2.2 ∧ t.2.2 < ((2 : Nat) : Int)}
      (Set.Icc 1 (2 * (((2 : Nat) : Int) * ((2 : Nat) : Int)))) ∧
    (∀ i j : Int, 0 ≤ i → i < ((2 : Nat) : Int) → 0 ≤ j → j < ((2 : Nat) : Int) →
      (1 ≤ wVar 2 i j ∧ wVar 2 i j ≤ ((2 : Nat) : Int) * ((2 : Nat) : Int)) ∧
      (((2 : Nat) : Int) * ((2 : Nat) : Int) + 1 ≤ bVar 2 i j ∧
        bVar 2 i j ≤ 2 * (((2 : Nat) : Int) * ((2 : Nat) : Int)))) ∧
    (∀ i j : Int, decodeWV 2 i j = wVar 2 i j ∧ decodeBV 2 i j = bVar 2 i j) :=
  c7_varid_bijection 2 (by decide)

/-! ### C8: decoder cell rendering -/

lemma mem_wPositions {n : Nat} {model : List Int} {x y : Int} :
    (x, y) ∈ wPositions n model ↔
      0 ≤ x ∧ x < (n : Int) ∧ 0 ≤ y ∧ y < (n : Int) ∧
        decodeWV n x y ∈ trueVars model := by
  unfold wPositions
  rw [List.mem_flatMap]
  constructor
  · rintro ⟨i, hi, hmem⟩
    rw [List.mem_filterMap] at hmem
    obtain ⟨j, hj, heq⟩ := hmem
    by_cases h : decodeWV n i j ∈ trueVars model
    · rw [if_pos h] at heq
      have hp := Option.some.inj heq
      rw [Prod.mk.injEq] at hp
      obtain ⟨rfl, rfl⟩ := hp
      exact ⟨(mem_intRange.1 hi).1, (mem_intRange.1 hi).2,
        (mem_intRange.1 hj).1, (mem_intRange.1 hj).2, h⟩
    · rw [if_neg h] at heq
      exact absurd heq (by simp)
  · rintro ⟨h1, h2, h3, h4, h5⟩
    exact ⟨x, mem_intRange.2 ⟨h1, h2⟩,
      List.mem_filterMap.2 ⟨y, mem_intRange.2 ⟨h3, h4⟩, by rw [if_pos h5]⟩⟩

lemma mem_bPositions {n : Nat} {model : List Int} {x y : Int} :
    (x, y) ∈ bPositions n model ↔
      0 ≤ x ∧ x < (n : Int) ∧ 0 ≤ y ∧ y < (n : Int) ∧
        decodeBV n x y ∈ trueVars model := by
  unfold bPositions
  rw [List.mem_flatMap]
  constructor
  · rintro ⟨i, hi, hmem⟩
    rw [List.mem_filterMap] at hmem
    obtain ⟨j, hj, heq⟩ := hmem
    by_cases h : decodeBV n i j ∈ trueVars model
    · rw [if_pos h] at heq
      have hp := Option.some.inj heq
      rw [Prod.mk.injEq] at hp
      obtain ⟨rfl, rfl⟩ := hp
      exact ⟨(mem_intRange.1 hi).1, (mem_intRange.1 hi).2,
        (mem_intRange.1 hj).1, (mem_intRange.1 hj).2, h⟩
    · rw [if_neg h] at heq
      exact absurd heq (by simp)
  · rintro ⟨h1, h2, h3, h4, h5⟩
    exact ⟨x, mem_intRange.2 ⟨h1, h2⟩,
      List.mem_filterMap.2 ⟨y, mem_intRange.2 ⟨h3, h4⟩, by rw [if_pos h5]⟩⟩

/-- C8: for every in-range cell the decoder renders `W` when the cell's
white ID occurs positively in the model, else `B` when its black ID
occurs positively, else `.`; when both occur positively `W`
deterministically wins, and an ID absent from the model counts as
false. -/
theorem c8_decode_cell (n : Nat) (model : List Int) (i j : Int)
    (hi0 : 0 ≤ i) (hin : i < (n : Int)) (hj0 : 0 ≤ j) (hjn : j < (n : Int)) :
    cellSym n model i j =
      (if decodeWV n i j ∈ trueVars model then "W".data
       else if decodeBV n i j ∈ trueVars model then "B".data
       else ".".data) ∧
    (decodeWV n i j ∈ trueVars model → decodeBV n i j ∈ trueVars model →
      cellSym n model i j = "W".data) ∧
    (decodeWV n i j ∉ model → decodeBV n i j ∉ model →
      cellSym n model i j = ".".data) := by
  have hw : (i, j) ∈ wPositions n model ↔ decodeWV n i j ∈ trueVars model := by
    rw [mem_wPositions]
    exact ⟨fun h => h.2.2.2.2, fun h => ⟨hi0, hin, hj0, hjn, h⟩⟩
  have hb : (i, j) ∈ bPositions n model ↔ decodeBV n i j ∈ trueVars model := by
    rw [mem_bPositions]
    exact ⟨fun h => h.2.2.2.2, fun h => ⟨hi0, hin, hj0, hjn, h⟩⟩
  have hmain : cellSym n model i j =
      (if decodeWV n i j ∈ trueVars model then "W".data
       else if decodeBV n i j ∈ trueVars model then "B".data
       else ".".data) := by
    unfold cellSym
    by_cases h1 : decodeWV n i j ∈ trueVars model
    · rw [if_pos (hw.2 h1), if_pos h1]
    · rw [if_neg (fun hc => h1 (hw.1 hc)), if_neg h1]
      by_cases h2 : decodeBV n i j ∈ trueVars model
      · rw [if_pos (hb.2 h2), if_pos h2]
      · rw [if_neg (fun hc => h2 (hb.1 hc)), if_neg h2]
  refine ⟨hmain, ?_, ?_⟩
  · intro h1 _
    rw [hmain, if_pos h1]
  · intro h1 h2
    have hw2 : decodeWV n i j ∉ trueVars model :=
      fun hc => h1 (List.mem_of_mem_filter hc)
    have hb2 : decodeBV n i j ∉ trueVars model :=
      fun hc => h2 (List.mem_of_mem_filter hc)
    rw [hmain, if_neg hw2, if_neg hb2]

/-- Witness for C8 at `n = 2`, model `[1, 8, -3]`, cell `(0, 0)`. -/
theorem c8_witness :
    cellSym 2 [1, 8, -3] 0 0 =
      (if decodeWV 2 0 0 ∈ trueVars [1, 8, -3] then "W".data
       else if decodeBV 2 0 0 ∈ trueVars [1, 8, -3] then "B".data
       else ".".data) ∧
    (decodeWV 2 0 0 ∈ trueVars [1, 8, -3] → decodeBV 2 0 0 ∈ trueVars [1, 8, -3] →
      cellSym 2 [1, 8, -3] 0 0 = "W".data) ∧
    (decodeWV 2 0 0 ∉ [1, 8, -3] → decodeBV 2 0 0 ∉ [1, 8, -3] →
      cellSym 2 [1, 8, -3] 0 0 = ".".data) :=
  c8_decode_cell 2 [1, 8, -3] 0 0 (by decide) (by decide) (by decide) (by decide)

/-! ### C4: parsing without a status line -/

/-- A line that does not start with `"s "` leaves the verdict component
of the state unchanged. -/
lemma solveStep_fst {st : Option Bool × List Int} {l : List Char}
    (hs : startsWithL l "s ".data = false) {res : Option Bool × List Int}
    (h : solveStep st l = Except.ok res) : res.1 = st.1 := by
  unfold solveStep at h
  rw [hs] at h
  simp only [Bool.false_eq_true, if_false] at h
  by_cases hv : startsWithL l "v ".data = true
  · rw [if_pos hv] at h
    cases hm : (pySplit l).tail.mapM parseIntPy with
    | error e =>
      rw [hm] at h
      exact absurd h (by simp)
    | ok vals =>
      rw [hm] at h
      have := Except.ok.inj h
      rw [← this]
  · rw [if_neg hv] at h
    have := Except.ok.inj h
    rw [← this]

/-- A line that starts with neither `"s "` nor `"v "` leaves the whole
state unchanged. -/
lemma solveStep_skip {st : Option Bool × List Int} {l : List Char}
    (hs : startsWithL l "s ".data = false)
    (hv : startsWithL l "v ".data = false) :
    solveStep st l = Except.ok st := by
  unfold solveStep
  rw [hs, hv]
  simp

/-- Over output with no status line, any successfully parsed final state
keeps the initial verdict. -/
lemma parse_fold_fst :
    ∀ (output : List (List Char)) (st : Option Bool × List Int),
      (∀ l ∈ output, startsWithL l "s ".data = false) →
      ∀ res, output.foldlM solveStep st = Except.ok res → res.1 = st.1 := by
  intro output
  induction output with
  | nil =>
    intro st _ res hres
    rw [List.foldlM_nil] at hres
    have := Except.ok.inj hres
    rw [← this]
  | cons a t ih =>
    intro st h res hres
    rw [List.foldlM_cons] at hres
    cases hstep : solveStep st a with
    | error e =>
      rw [hstep] at hres
      exact absurd hres (by simp [Bind.bind, Except.bind])
    | ok mid =>
      rw [hstep] at hres
      simp only [Bind.bind, Except.bind] at hres
      have h1 := solveStep_fst (h a (List.mem_cons_self a t)) hstep
      have h2 := ih mid (fun l hl => h l (List.mem_cons_of_mem a hl)) res hres
      rw [h2, h1]

/-- Over output with no status line and no value line, parsing returns
the initial state unchanged. -/
lemma parse_fold_skip :
    ∀ (output : List (List Char)) (st : Option Bool × List Int),
      (∀ l ∈ output, startsWithL l "s ".data = false) →
      (∀ l ∈ output, startsWithL l "v ".data = false) →
      output.foldlM solveStep st = Except.ok st := by
  intro output
  induction output with
  | nil =>
    intro st _ _
    rw [List.foldlM_nil]
    rfl
  | cons a t ih =>
    intro st hs hv
    rw [List.foldlM_cons, solveStep_skip (hs a (List.mem_cons_self a t))
      (hv a (List.mem_cons_self a t))]
    simp only [Bind.bind, Except.bind]
    exact ih st (fun l hl => hs l (List.mem_cons_of_mem a hl))
      (fun l hl => hv l (List.mem_cons_of_mem a hl))

/-- C4 counterexample: the claim says that whenever the captured output
has no `"s "` line the returned assignment is empty, but on the output
`["v 7 0"]` the code returns verdict `None` together with the nonempty
assignment `[7]`. -/
theorem c4_counterexample :
    (∀ l ∈ (["v 7 0".data] : List (List Char)), startsWithL l "s ".data = false) ∧
    parseSolverOutput ["v 7 0".data] = Except.ok (none, [7]) ∧
    ([7] : List Int) ≠ [] := by
  refine ⟨by decide, by rfl, by decide⟩

/-- C4 amended: when the captured standard output has no `"s "` line,
every successfully parsed result carries the verdict `None`
(distinguishable from the UNSAT verdict `some false`); the assignment is
empty when additionally no `"v "` line is present, but `"v "` lines are
still collected into the assignment.  When `subprocess.run` raises (the
binary is absent), `solveCNF` propagates the exception instead of
returning a verdict. -/
theorem c4_no_status_amended (output : List (List Char))
    (hs : ∀ l ∈ output, startsWithL l "s ".data = false) :
    (∀ res, parseSolverOutput output = Except.ok res →
      res.1 = none ∧ res.1 ≠ some false) ∧
    ((∀ l ∈ output, startsWithL l "v ".data = false) →
      parseSolverOutput output = Except.ok (none, [])) ∧
    (∀ e, solveCNF (Except.error e) = Except.error e) := by
  refine ⟨?_, ?_, fun e => rfl⟩
  · intro res hres
    have h1 := parse_fold_fst output (none, []) hs res hres
    exact ⟨h1, by rw [h1]; exact fun hc => Option.noConfusion hc⟩
  · intro hv
    exact parse_fold_skip output (none, []) hs hv

/-- Witness for the amended C4 on a comment-only output. -/
theorem c4_witness :
    (∀ res, parseSolverOutput ["c hello".data] = Except.ok res →
      res.1 = none ∧ res.1 ≠ some false) ∧
    ((∀ l ∈ (["c hello".data] : List (List Char)),
        startsWithL l "v ".data = false) →
      parseSolverOutput ["c hello".data] = Except.ok (none, [])) ∧
    (∀ e, solveCNF (Except.error e) = Except.error e) :=
  c4_no_status_amended ["c hello".data] (by decide)
